import Mathlib

/-!
Spammer: a verification development for the concurrent spam-report pipeline

The Go source (`spammer.go`) chains five stages over unbuffered channels:
`RunPipeline`, `SelectUsers`, `SelectMessages` (with `selectWorker`),
`CheckSpam` and `CombineResults`.

Embedding conventions.

* A channel that is written, closed and then ranged over is the finite list of
  the values sent on it, in the order of the sends.
* Goroutines are embedded by explicit scheduling: a stage that spawns
  goroutines takes the schedule (the order in which the goroutines reach their
  synchronised steps) as an argument, and theorems quantify over all schedules.
* `RunPipeline` is embedded with its goroutines and unbuffered channels: a run is
  a sequence of steps in which a send completes only together with a receive on
  the same channel, and a blocked goroutine does not move.
* Completion signalling is stated on the interleavings of the event sequences of
  the spawned goroutines, against the loop that receives from `done`.
* `uint64` values are natural numbers; the pipeline performs no arithmetic on
  identifiers, so no wrap-around can occur.
* A Go `(value, error)` result is an `Except`.
-/

namespace Spammer

/-! ## Data model -/

/-- Modelled from the spec: the declaration of `MsgID` is outside `spammer.go`;
the spec gives it as an unsigned 64-bit message identifier. -/
abbrev MsgID := Nat

/-- Modelled from the spec: the declaration of `MsgData` is outside `spammer.go`;
the positional literal `MsgData{id, result}` in `CheckSpam` and the field reads in
`CombineResults` fix its two fields, `ID` and `HasSpam`. -/
structure MsgData where
  ID : MsgID
  HasSpam : Bool
deriving DecidableEq, Repr

/-- Modelled from the spec: the declaration of `User` is outside `spammer.go`;
the pipeline reads only the `ID` field (unsigned 64-bit), the remaining payload
is carried along untouched. -/
structure User where
  ID : Nat
  Email : String
deriving DecidableEq, Repr

/-- Modelled from the spec: Go's `error` value, of which the pipeline only tests
`err != nil`. -/
abbrev Error := String

/-! ## Aggregation stage: `CombineResults` -/

/-- The comparator closure handed to `sort.Slice` in `CombineResults`:
```go
if results[i].HasSpam != results[j].HasSpam {
    return results[i].HasSpam && !results[j].HasSpam
}
return results[i].ID < results[j].ID
``` -/
def less (a b : MsgData) : Bool :=
  if a.HasSpam != b.HasSpam then a.HasSpam && !b.HasSpam
  else decide (a.ID < b.ID)

/-- Insertion of one element into an already ordered list, before the first
element it is `less` than. -/
def insertSorted {α : Type} (lt : α → α → Bool) (x : α) : List α → List α
  | [] => [x]
  | y :: ys => if lt x y then x :: y :: ys else y :: insertSorted lt x ys

/-- Model of the library call `sort.Slice(results, less)`: an insertion sort
driven by the caller's comparator.  The library does not fix the algorithm
(and the sort is not stable); `sortSlice_unique` below shows that for the
comparator of `CombineResults` every correct sort returns this very list. -/
def sortSlice {α : Type} (lt : α → α → Bool) : List α → List α
  | [] => []
  | x :: xs => insertSorted lt x (sortSlice lt xs)

/-- The first loop of `CombineResults`:
`for data := range in { results = append(results, data.(MsgData)) }`. -/
def collectResults (input : List MsgData) : List MsgData :=
  input.foldl (fun results msgData => results ++ [msgData]) []

/-- The line `fmt.Sprintf("%v %v", msgData.HasSpam, msgData.ID)`: the boolean as
`true`/`false`, one space, the identifier in decimal. -/
def formatLine (msgData : MsgData) : String :=
  toString msgData.HasSpam ++ " " ++ toString msgData.ID

/-- The slice `results` of `CombineResults` after the call to `sort.Slice`. -/
def sortedResults (input : List MsgData) : List MsgData :=
  sortSlice less (collectResults input)

/-- The stage `CombineResults`: buffer the whole input, sort it, emit one formatted
line per result. -/
def CombineResults (input : List MsgData) : List String :=
  (sortedResults input).map formatLine

/-! ### Facts about the comparator -/

theorem less_irrefl (a : MsgData) : less a a = false := by
  simp [less]

theorem less_trans {a b c : MsgData} (hab : less a b = true) (hbc : less b c = true) :
    less a c = true := by
  obtain ⟨ia, sa⟩ := a
  obtain ⟨ib, sb⟩ := b
  obtain ⟨ic, sc⟩ := c
  cases sa <;> cases sb <;> cases sc <;> simp_all [less] <;> (unfold MsgID at *; omega)

theorem less_total {a b : MsgData} (h : a ≠ b) : less a b = true ∨ less b a = true := by
  obtain ⟨ia, sa⟩ := a
  obtain ⟨ib, sb⟩ := b
  cases sa <;> cases sb <;> simp_all [less]

theorem less_asymm {a b : MsgData} (h : less a b = true) : less b a = false := by
  obtain ⟨ia, sa⟩ := a
  obtain ⟨ib, sb⟩ := b
  cases sa <;> cases sb <;> simp_all [less] <;> (unfold MsgID at *; omega)

/-- The non-strict order induced by the comparator: `b` does not have to come
before `a`. -/
def notAfter (a b : MsgData) : Prop := less b a = false

instance : DecidableRel notAfter := fun a b => by unfold notAfter; infer_instance

theorem notAfter_trans {a b c : MsgData} (hab : notAfter a b) (hbc : notAfter b c) :
    notAfter a c := by
  obtain ⟨ia, sa⟩ := a
  obtain ⟨ib, sb⟩ := b
  obtain ⟨ic, sc⟩ := c
  cases sa <;> cases sb <;> cases sc <;> simp_all [less, notAfter] <;> (unfold MsgID at *; omega)

theorem notAfter_antisymm {a b : MsgData} (hab : notAfter a b) (hba : notAfter b a) :
    a = b := by
  by_contra hne
  rcases less_total hne with h | h
  · rw [notAfter] at hba; rw [hba] at h; cases h
  · rw [notAfter] at hab; rw [hab] at h; cases h

theorem notAfter_of_not_less {a b : MsgData} (h : less a b = false) : notAfter b a := h

theorem notAfter_of_less {a b : MsgData} (h : less a b = true) : notAfter a b :=
  less_asymm h

instance : IsTrans MsgData notAfter := ⟨fun _ _ _ => notAfter_trans⟩

instance : IsAntisymm MsgData notAfter := ⟨fun _ _ => notAfter_antisymm⟩

/-- What the comparator means on the two fields. -/
theorem notAfter_iff (a b : MsgData) :
    notAfter a b ↔ (b.HasSpam ≤ a.HasSpam ∧ (a.HasSpam = b.HasSpam → a.ID ≤ b.ID)) := by
  obtain ⟨ia, sa⟩ := a
  obtain ⟨ib, sb⟩ := b
  cases sa <;> cases sb <;> simp [less, notAfter]

/-! ### Facts about the sort -/

theorem collectResults_eq (input : List MsgData) : collectResults input = input := by
  have h : ∀ (l acc : List MsgData),
      l.foldl (fun results msgData => results ++ [msgData]) acc = acc ++ l := by
    intro l
    induction l with
    | nil => intro acc; simp
    | cons x xs ih => intro acc; simp [ih]
  simpa [collectResults] using h input []

theorem insertSorted_perm {α : Type} (lt : α → α → Bool) (x : α) (l : List α) :
    (insertSorted lt x l).Perm (x :: l) := by
  induction l with
  | nil => simp [insertSorted]
  | cons y ys ih =>
    unfold insertSorted
    split
    · exact List.Perm.refl _
    · exact (List.Perm.cons y ih).trans (List.Perm.swap x y ys)

theorem sortSlice_perm {α : Type} (lt : α → α → Bool) (l : List α) :
    (sortSlice lt l).Perm l := by
  induction l with
  | nil => simp [sortSlice]
  | cons x xs ih =>
    unfold sortSlice
    exact (insertSorted_perm lt x _).trans (List.Perm.cons x ih)

theorem insertSorted_pairwise (x : MsgData) (l : List MsgData)
    (hl : l.Pairwise notAfter) : (insertSorted less x l).Pairwise notAfter := by
  induction l with
  | nil => simp [insertSorted]
  | cons y ys ih =>
    rw [List.pairwise_cons] at hl
    unfold insertSorted
    split
    · rename_i hxy
      refine List.pairwise_cons.2 ⟨?_, List.pairwise_cons.2 hl⟩
      intro z hz
      rcases List.mem_cons.1 hz with rfl | hz
      · exact notAfter_of_less hxy
      · exact notAfter_trans (notAfter_of_less hxy) (hl.1 z hz)
    · rename_i hxy
      have hxy : less x y = false := by simpa using hxy
      refine List.pairwise_cons.2 ⟨?_, ih hl.2⟩
      intro z hz
      rcases List.mem_cons.1 ((insertSorted_perm less x ys).subset hz) with rfl | hz
      · exact notAfter_of_not_less hxy
      · exact hl.1 z hz

theorem sortSlice_pairwise (l : List MsgData) : (sortSlice less l).Pairwise notAfter := by
  induction l with
  | nil => simp [sortSlice]
  | cons x xs ih =>
    unfold sortSlice
    exact insertSorted_pairwise x _ ih

/-- Every arrangement of the input that is ordered by the comparator is the list
computed by `sortSlice`: the outcome of `sort.Slice` does not depend on the sorting
algorithm. -/
theorem sortSlice_unique {input sorted : List MsgData} (hperm : sorted.Perm input)
    (hsorted : sorted.Chain' notAfter) : sorted = sortSlice less input :=
  List.eq_of_perm_of_sorted (hperm.trans (sortSlice_perm less input).symm)
    (List.chain'_iff_pairwise.1 hsorted) (sortSlice_pairwise input)

theorem sortSlice_congr {l₁ l₂ : List MsgData} (h : l₁.Perm l₂) :
    sortSlice less l₁ = sortSlice less l₂ :=
  sortSlice_unique ((sortSlice_perm less l₁).trans h)
    (List.chain'_iff_pairwise.2 (sortSlice_pairwise l₁))

theorem sortedResults_perm (input : List MsgData) : (sortedResults input).Perm input := by
  unfold sortedResults
  rw [collectResults_eq]
  exact sortSlice_perm less input

theorem CombineResults_congr {l₁ l₂ : List MsgData} (h : l₁.Perm l₂) :
    CombineResults l₁ = CombineResults l₂ := by
  unfold CombineResults sortedResults
  rw [collectResults_eq, collectResults_eq, sortSlice_congr h]

/-! ### Claims about the aggregation stage -/

/-- C1: the lines emitted by `CombineResults` are the formatted entries of a
rearrangement of the input in which every adjacent pair `(x, y)` has
`x.HasSpam ≥ y.HasSpam`, and `x.ID ≤ y.ID` whenever the two flags agree. -/
theorem CombineResults_sorted (input : List MsgData) :
    CombineResults input = (sortedResults input).map formatLine ∧
    (sortedResults input).Perm input ∧
    (sortedResults input).Chain'
      (fun x y => x.HasSpam ≥ y.HasSpam ∧ (x.HasSpam = y.HasSpam → x.ID ≤ y.ID)) := by
  refine ⟨rfl, sortedResults_perm input, ?_⟩
  have h : (sortedResults input).Chain' notAfter := by
    unfold sortedResults
    exact List.chain'_iff_pairwise.2 (sortSlice_pairwise _)
  exact h.imp (fun a b hab => (notAfter_iff a b).1 hab)

/-- C8: the comparator of `CombineResults` is a strict total order on `MsgData`
(irreflexive, transitive, any two distinct values comparable); hence inputs that
are permutations of each other yield the identical sequence of lines, and any
arrangement of the input ordered by the comparator (whatever an unstable sort
returns) formats to exactly the emitted lines. -/
theorem CombineResults_deterministic :
    (∀ a : MsgData, less a a = false) ∧
    (∀ a b c : MsgData, less a b = true → less b c = true → less a c = true) ∧
    (∀ a b : MsgData, a ≠ b → less a b = true ∨ less b a = true) ∧
    (∀ l₁ l₂ : List MsgData, l₁.Perm l₂ → CombineResults l₁ = CombineResults l₂) ∧
    (∀ input sorted : List MsgData, sorted.Perm input →
      sorted.Chain' (fun x y => less y x = false) →
      sorted.map formatLine = CombineResults input) := by
  refine ⟨less_irrefl, fun a b c => less_trans, fun a b => less_total,
    fun l₁ l₂ => CombineResults_congr, ?_⟩
  intro input sorted hperm hsorted
  have h : sorted = sortSlice less input := sortSlice_unique hperm hsorted
  unfold CombineResults sortedResults
  rw [collectResults_eq, ← h]

/-! ## Deduplication stage: `SelectUsers` -/

/-- The shared state of `SelectUsers`: the key set of the map `uniqueUsers`
(most recent key first) and the values sent on `out` so far. -/
structure DedupState where
  uniqueUsers : List Nat
  out : List User
deriving DecidableEq, Repr

/-- The critical section of one lookup goroutine of `SelectUsers`, between
`mu.Lock()` and `mu.Unlock()`:
```go
if _, exists := uniqueUsers[user.ID]; !exists {
    uniqueUsers[user.ID] = struct{}{}
    out <- user
}
``` -/
def lockedStep (s : DedupState) (user : User) : DedupState :=
  if user.ID ∈ s.uniqueUsers then s
  else { uniqueUsers := user.ID :: s.uniqueUsers, out := s.out ++ [user] }

/-- The state of `SelectUsers` after the goroutines of the emails `order` have
run their critical sections one after the other, starting from `s`.  Every
goroutine first calls `GetUser` outside the lock. -/
def dedupRun (GetUser : String → User) (s : DedupState) (order : List String) : DedupState :=
  order.foldl (fun s email => lockedStep s (GetUser email)) s

/-- The stage `SelectUsers`.  One goroutine is spawned per received email; the
mutex serialises their critical sections, and `order` lists the emails in the
order in which their goroutines acquire the mutex (any rearrangement of the
input may occur).  The result is the sequence sent on `out`. -/
def SelectUsers (GetUser : String → User) (order : List String) : List User :=
  (dedupRun GetUser ⟨[], []⟩ order).out

/-- The identifiers the emails resolve to, in input order. -/
def resolvedIDs (GetUser : String → User) (emails : List String) : List Nat :=
  emails.map (fun email => (GetUser email).ID)

theorem dedupRun_nil (GetUser : String → User) (s : DedupState) :
    dedupRun GetUser s [] = s := rfl

theorem dedupRun_cons (GetUser : String → User) (s : DedupState) (e : String)
    (es : List String) :
    dedupRun GetUser s (e :: es) = dedupRun GetUser (lockedStep s (GetUser e)) es := rfl

/-- The emitted identifiers are the keys of the map, oldest first, and no key is
stored twice. -/
def DedupInv (s : DedupState) : Prop :=
  s.out.map User.ID = s.uniqueUsers.reverse ∧ s.uniqueUsers.Nodup

theorem lockedStep_inv {s : DedupState} (h : DedupInv s) (user : User) :
    DedupInv (lockedStep s user) := by
  unfold lockedStep
  split
  · exact h
  · rename_i hnew
    refine ⟨?_, List.nodup_cons.2 ⟨hnew, h.2⟩⟩
    simp [h.1]

theorem lockedStep_mem (s : DedupState) (user : User) (id : Nat) :
    id ∈ (lockedStep s user).uniqueUsers ↔ id ∈ s.uniqueUsers ∨ id = user.ID := by
  unfold lockedStep
  split
  · rename_i hseen
    constructor
    · exact Or.inl
    · rintro (h | rfl)
      · exact h
      · exact hseen
  · simp [or_comm]

theorem dedupRun_inv (GetUser : String → User) (order : List String) :
    ∀ s : DedupState, DedupInv s → DedupInv (dedupRun GetUser s order) := by
  induction order with
  | nil => intro s h; exact h
  | cons e es ih =>
    intro s h
    rw [dedupRun_cons]
    exact ih _ (lockedStep_inv h _)

theorem dedupRun_mem (GetUser : String → User) (order : List String) (id : Nat) :
    ∀ s : DedupState, id ∈ (dedupRun GetUser s order).uniqueUsers ↔
      id ∈ s.uniqueUsers ∨ id ∈ resolvedIDs GetUser order := by
  induction order with
  | nil => intro s; simp [dedupRun_nil, resolvedIDs]
  | cons e es ih =>
    intro s
    rw [dedupRun_cons, ih, lockedStep_mem]
    simp only [resolvedIDs, List.map_cons, List.mem_cons]
    tauto

theorem dedupRun_out_subset (GetUser : String → User) (order : List String) :
    ∀ s : DedupState, ∀ u ∈ (dedupRun GetUser s order).out,
      u ∈ s.out ∨ u ∈ order.map GetUser := by
  induction order with
  | nil => intro s u hu; exact Or.inl hu
  | cons e es ih =>
    intro s u hu
    rw [dedupRun_cons] at hu
    rcases ih _ u hu with h | h
    · unfold lockedStep at h
      split at h
      · exact Or.inl h
      · rcases List.mem_append.1 h with h | h
        · exact Or.inl h
        · right
          simp only [List.mem_singleton] at h
          simp [h]
    · right
      simp only [List.map_cons, List.mem_cons]
      exact Or.inr h

theorem SelectUsers_ids_nodup (GetUser : String → User) (order : List String) :
    ((SelectUsers GetUser order).map User.ID).Nodup := by
  have h := dedupRun_inv GetUser order ⟨[], []⟩ ⟨rfl, List.nodup_nil⟩
  unfold SelectUsers
  rw [h.1]
  exact List.nodup_reverse.2 h.2

theorem SelectUsers_mem_ids (GetUser : String → User) (order : List String) (id : Nat) :
    id ∈ (SelectUsers GetUser order).map User.ID ↔ id ∈ resolvedIDs GetUser order := by
  have h := dedupRun_inv GetUser order ⟨[], []⟩ ⟨rfl, List.nodup_nil⟩
  unfold SelectUsers
  rw [h.1, List.mem_reverse, dedupRun_mem]
  simp

/-- Whatever the order of the critical sections, the emitted identifiers are a
rearrangement of the distinct identifiers among the resolutions. -/
theorem SelectUsers_ids_perm (GetUser : String → User) {emails order : List String}
    (h : order.Perm emails) :
    ((SelectUsers GetUser order).map User.ID).Perm (resolvedIDs GetUser emails).dedup := by
  refine (List.perm_ext_iff_of_nodup (SelectUsers_ids_nodup GetUser order)
    (List.nodup_dedup _)).2 ?_
  intro id
  rw [SelectUsers_mem_ids, List.mem_dedup]
  exact (h.map _).mem_iff

/-- C2: for every resolver `GetUser` and every order in which the lookup
goroutines reach the locked check-and-insert step, `SelectUsers` emits no two
users with the same ID, every ID among the resolutions is emitted exactly once,
every emitted user is one of the resolutions, and the number of emitted users is
the number of distinct IDs among the resolutions. -/
theorem SelectUsers_dedup (GetUser : String → User) (emails order : List String)
    (h : order.Perm emails) :
    ((SelectUsers GetUser order).map User.ID).Nodup ∧
    (∀ id ∈ resolvedIDs GetUser emails,
      ((SelectUsers GetUser order).map User.ID).count id = 1) ∧
    (∀ u ∈ SelectUsers GetUser order, u ∈ emails.map GetUser) ∧
    (SelectUsers GetUser order).length = (resolvedIDs GetUser emails).dedup.length := by
  refine ⟨SelectUsers_ids_nodup GetUser order, ?_, ?_, ?_⟩
  · intro id hid
    refine List.count_eq_one_of_mem (SelectUsers_ids_nodup GetUser order) ?_
    rw [SelectUsers_mem_ids]
    exact (h.map _).mem_iff.2 hid
  · intro u hu
    rcases dedupRun_out_subset GetUser order ⟨[], []⟩ u hu with h0 | h1
    · cases h0
    · exact (h.map _).mem_iff.1 h1
  · have hp := (SelectUsers_ids_perm GetUser h).length_eq
    simpa using hp

/-- C2 at a concrete input: three emails, two of them resolving to the same user,
with the second lookup overtaking the first. -/
theorem SelectUsers_dedup_witness :
    (((SelectUsers (fun e => ⟨e.length, e⟩) ["bb", "a", "cc"]).map User.ID).Nodup ∧
    (∀ id ∈ resolvedIDs (fun e => ⟨e.length, e⟩) ["a", "bb", "cc"],
      ((SelectUsers (fun e => ⟨e.length, e⟩) ["bb", "a", "cc"]).map User.ID).count id = 1) ∧
    (∀ u ∈ SelectUsers (fun e => ⟨e.length, e⟩) ["bb", "a", "cc"],
      u ∈ ["a", "bb", "cc"].map (fun e => (⟨e.length, e⟩ : User))) ∧
    (SelectUsers (fun e => ⟨e.length, e⟩) ["bb", "a", "cc"]).length =
      (resolvedIDs (fun e => ⟨e.length, e⟩) ["a", "bb", "cc"]).dedup.length) ∧
    SelectUsers (fun e => ⟨e.length, e⟩) ["bb", "a", "cc"] = [⟨2, "bb"⟩, ⟨1, "a"⟩] :=
  ⟨SelectUsers_dedup (fun e => ⟨e.length, e⟩) ["a", "bb", "cc"] ["bb", "a", "cc"]
    (List.Perm.swap "a" "bb" ["cc"]), by decide⟩

/-! ## Scheduling of concurrent senders -/

/-- The sequence received from a channel on which several goroutines send
concurrently.  `queues` holds, for every sending goroutine, the values it still
has to send, in its program order.  Each entry `k` of the schedule lets goroutine
`k` complete its next send (an entry naming no goroutine, or one that has nothing
left to send, is skipped); once the schedule is used up the goroutines finish one
after the other. -/
def interleave {α : Type} : List Nat → List (List α) → List α
  | [], queues => queues.flatten
  | k :: sched, queues =>
    match queues[k]? with
    | some (x :: rest) => x :: interleave sched (queues.set k rest)
    | _ => interleave sched queues

theorem flatten_set_perm {α : Type} (x : α) (rest : List α) :
    ∀ (queues : List (List α)) (k : Nat), queues[k]? = some (x :: rest) →
      queues.flatten.Perm (x :: (queues.set k rest).flatten) := by
  intro queues
  induction queues with
  | nil => intro k hk; simp at hk
  | cons q qs ih =>
    intro k hk
    cases k with
    | zero =>
      simp only [List.getElem?_cons_zero, Option.some.injEq] at hk
      subst hk
      simp
    | succ k =>
      simp only [List.getElem?_cons_succ] at hk
      simp only [List.set_cons_succ, List.flatten_cons]
      exact (List.Perm.append_left q (ih k hk)).trans List.perm_middle

/-- An interleaving neither loses, nor duplicates, nor invents a value. -/
theorem interleave_perm {α : Type} (sched : List Nat) :
    ∀ queues : List (List α), (interleave sched queues).Perm queues.flatten := by
  induction sched with
  | nil => intro queues; exact List.Perm.refl _
  | cons k sched ih =>
    intro queues
    unfold interleave
    split
    · rename_i x rest hk
      exact (List.Perm.cons x (ih _)).trans (flatten_set_perm x rest queues k hk).symm
    · exact ih queues

/-- The sequences that can be received from a channel on which the goroutines
`queues` send concurrently: at every moment any goroutine that still has something
to send may complete its next send. -/
inductive Interleaving {α : Type} : List (List α) → List α → Prop
  | finished (queues : List (List α)) (h : ∀ q ∈ queues, q = []) : Interleaving queues []
  | send (queues : List (List α)) (k : Nat) (x : α) (rest out : List α)
      (hk : queues[k]? = some (x :: rest)) (h : Interleaving (queues.set k rest) out) :
      Interleaving queues (x :: out)

theorem Interleaving.cons_nil {α : Type} {queues : List (List α)} {out : List α}
    (h : Interleaving queues out) : Interleaving ([] :: queues) out := by
  induction h with
  | finished queues hq =>
    refine Interleaving.finished _ ?_
    intro q hmem
    rcases List.mem_cons.1 hmem with rfl | hmem
    · rfl
    · exact hq q hmem
  | send queues k x rest out hk _ ih =>
    exact Interleaving.send _ (k + 1) x rest out (by simpa using hk) (by simpa using ih)

theorem Interleaving.cons_queue {α : Type} {queues : List (List α)} {out : List α}
    (h : Interleaving queues out) (q : List α) : Interleaving (q :: queues) (q ++ out) := by
  induction q with
  | nil => exact h.cons_nil
  | cons x xs ih => exact Interleaving.send _ 0 x xs (xs ++ out) (by simp) (by simpa using ih)

theorem Interleaving.flatten {α : Type} (queues : List (List α)) :
    Interleaving queues queues.flatten := by
  induction queues with
  | nil => exact Interleaving.finished [] (by simp)
  | cons q qs ih => exact ih.cons_queue q

/-- What one `selectWorker` goroutine does on its two channels: a send on `out`
or the send on `done`. -/
inductive WorkerEvent where
  | send (msg : MsgID)
  | done
deriving DecidableEq, Repr

/-- The goroutine `selectWorker(u, out, done)`, as the sequence of its channel
operations.  The deferred `done <- struct{}{}` runs when the function returns,
on the early `return` of the error branch as well as after the last send. -/
def selectWorker (GetMessages : List User → Except Error (List MsgID)) (u : List User) :
    List WorkerEvent :=
  match GetMessages u with
  | .error _ => [WorkerEvent.done]
  | .ok res => res.map WorkerEvent.send ++ [WorkerEvent.done]

/-- The messages among the channel operations, in order. -/
def sentMessages (events : List WorkerEvent) : List MsgID :=
  events.filterMap (fun ev => match ev with
    | .send msg => some msg
    | .done => none)

/-- The local state of the receive loop of `SelectMessages`: the buffer `users`,
the counter `batchCount`, and the batches handed to `go selectWorker(...)` so
far, in dispatch order. -/
structure BatchState where
  users : List User
  batchCount : Nat
  dispatched : List (List User)
deriving DecidableEq, Repr

/-- One iteration of `for userData := range in` in `SelectMessages`, for the batch
size `B = GetMessagesMaxUsersBatch`:
```go
users = append(users, user)
if len(users) == GetMessagesMaxUsersBatch {
    batchCount++
    go selectWorker(users, out, done)
    users = make([]User, 0, GetMessagesMaxUsersBatch)
}
``` -/
def batchStep (B : Nat) (s : BatchState) (user : User) : BatchState :=
  if (s.users ++ [user]).length = B then
    { users := [], batchCount := s.batchCount + 1,
      dispatched := s.dispatched ++ [s.users ++ [user]] }
  else
    { users := s.users ++ [user], batchCount := s.batchCount, dispatched := s.dispatched }

/-- The statement after the receive loop of `SelectMessages`:
`if len(users) > 0 { batchCount++; go selectWorker(users, out, done) }`. -/
def batchFlush (s : BatchState) : BatchState :=
  if s.users.length > 0 then
    { users := s.users, batchCount := s.batchCount + 1,
      dispatched := s.dispatched ++ [s.users] }
  else s

/-- The state of `SelectMessages` when it starts waiting on `done`. -/
def batchRun (B : Nat) (input : List User) : BatchState :=
  batchFlush (input.foldl (batchStep B) ⟨[], 0, []⟩)

/-- The batches `SelectMessages` hands to `selectWorker`, in dispatch order. -/
def dispatchedBatches (B : Nat) (input : List User) : List (List User) :=
  (batchRun B input).dispatched

/-- The stage `SelectMessages`: every dispatched batch runs `selectWorker` in its
own goroutine, all sending on the shared `out`; `sched` fixes how their sends
interleave.  The result is the sequence of messages sent on `out`. -/
def SelectMessages (GetMessages : List User → Except Error (List MsgID)) (B : Nat)
    (sched : List Nat) (input : List User) : List MsgID :=
  sentMessages
    (interleave sched ((dispatchedBatches B input).map (selectWorker GetMessages)))

/-- The messages a batch contributes: the result of its fetch, nothing when the
fetch fails. -/
def fetched (GetMessages : List User → Except Error (List MsgID)) (u : List User) :
    List MsgID :=
  match GetMessages u with
  | .error _ => []
  | .ok res => res

theorem sentMessages_append (a b : List WorkerEvent) :
    sentMessages (a ++ b) = sentMessages a ++ sentMessages b := by
  simp [sentMessages, List.filterMap_append]

theorem sentMessages_map_send (res : List MsgID) :
    sentMessages (res.map WorkerEvent.send) = res := by
  induction res with
  | nil => rfl
  | cons x xs ih =>
    simp only [sentMessages, List.map_cons, List.filterMap_cons] at ih ⊢
    rw [ih]

theorem sentMessages_selectWorker (GetMessages : List User → Except Error (List MsgID))
    (u : List User) : sentMessages (selectWorker GetMessages u) = fetched GetMessages u := by
  unfold selectWorker fetched
  split
  · rfl
  · rw [sentMessages_append, sentMessages_map_send]
    simp [sentMessages]

theorem count_done_selectWorker (GetMessages : List User → Except Error (List MsgID))
    (u : List User) : (selectWorker GetMessages u).count WorkerEvent.done = 1 := by
  unfold selectWorker
  split
  · rfl
  · rename_i res _
    have h : (res.map WorkerEvent.send).count WorkerEvent.done = 0 := by
      rw [List.count_eq_zero]
      simp
    rw [List.count_append, h]
    rfl

theorem sentMessages_flatten (traces : List (List WorkerEvent)) :
    sentMessages traces.flatten = (traces.map sentMessages).flatten := by
  induction traces with
  | nil => rfl
  | cons t ts ih => simp [sentMessages_append, ih]

/-- The messages sent on `out` by `SelectMessages` are, up to order, the results
of the successful fetches. -/
theorem SelectMessages_perm (GetMessages : List User → Except Error (List MsgID)) (B : Nat)
    (sched : List Nat) (input : List User) :
    (SelectMessages GetMessages B sched input).Perm
      ((dispatchedBatches B input).flatMap (fetched GetMessages)) := by
  unfold SelectMessages
  refine ((interleave_perm sched _).filterMap _).trans ?_
  have h : sentMessages ((dispatchedBatches B input).map (selectWorker GetMessages)).flatten
      = (dispatchedBatches B input).flatMap (fetched GetMessages) := by
    rw [sentMessages_flatten, List.map_map, List.flatMap_def]
    congr 1
    apply List.map_congr_left
    intro u _
    exact sentMessages_selectWorker GetMessages u
  exact List.Perm.of_eq h

/-! ### The batches formed by the receive loop -/

/-- Loop invariant of `SelectMessages`: the buffer is below capacity, every batch
dispatched so far is full, and `batchCount` counts the dispatched batches. -/
def BatchInv (B : Nat) (s : BatchState) : Prop :=
  s.users.length < B ∧ (∀ b ∈ s.dispatched, b.length = B) ∧
    s.batchCount = s.dispatched.length

theorem batchStep_inv {B : Nat} {s : BatchState} (h : BatchInv B s) (user : User) :
    BatchInv B (batchStep B s user) ∧
    (batchStep B s user).dispatched.flatten ++ (batchStep B s user).users
      = s.dispatched.flatten ++ s.users ++ [user] := by
  obtain ⟨hlt, hfull, hcount⟩ := h
  unfold batchStep
  split
  · rename_i hlen
    refine ⟨⟨?_, ?_, ?_⟩, ?_⟩
    · simp only [List.length_nil]; omega
    · intro b hb
      rcases List.mem_append.1 hb with hb | hb
      · exact hfull b hb
      · simp only [List.mem_singleton] at hb
        rw [hb]; exact hlen
    · simp [hcount]
    · simp
  · rename_i hlen
    refine ⟨⟨?_, hfull, hcount⟩, ?_⟩
    · simp only [List.length_append, List.length_singleton] at hlen ⊢
      omega
    · simp

theorem batchLoop_inv {B : Nat} (input : List User) :
    ∀ s : BatchState, BatchInv B s →
      BatchInv B (input.foldl (batchStep B) s) ∧
      (input.foldl (batchStep B) s).dispatched.flatten ++ (input.foldl (batchStep B) s).users
        = s.dispatched.flatten ++ s.users ++ input := by
  induction input with
  | nil => intro s h; exact ⟨h, by simp⟩
  | cons u us ih =>
    intro s h
    obtain ⟨h1, h2⟩ := batchStep_inv h u
    obtain ⟨h3, h4⟩ := ih _ h1
    refine ⟨h3, ?_⟩
    simp only [List.foldl_cons]
    rw [h4, h2]
    simp

theorem length_flatten_of_full {B : Nat} (l : List (List User))
    (h : ∀ b ∈ l, b.length = B) : l.flatten.length = B * l.length := by
  induction l with
  | nil => simp
  | cons b bs ih =>
    have hb : b.length = B := h b (List.mem_cons_self _ _)
    have hbs := ih (fun c hc => h c (List.mem_cons_of_mem _ hc))
    simp only [List.flatten_cons, List.length_append, List.length_cons, hb, hbs]
    rw [Nat.mul_succ]; omega

/-- The shape of the dispatched batches: some number of full batches, followed by
the remainder of the buffer when it is not empty. -/
theorem dispatchedBatches_shape {B : Nat} (hB : 1 ≤ B) (input : List User) :
    ∃ (full : List (List User)) (rest : List User),
      (∀ b ∈ full, b.length = B) ∧ rest.length < B ∧
      full.flatten ++ rest = input ∧
      dispatchedBatches B input = (if rest.length > 0 then full ++ [rest] else full) ∧
      (batchRun B input).batchCount = (dispatchedBatches B input).length := by
  obtain ⟨⟨hlt, hfull, hcount⟩, hcat⟩ :=
    batchLoop_inv (B := B) input ⟨[], 0, []⟩ ⟨by simpa using hB, by simp, rfl⟩
  refine ⟨(input.foldl (batchStep B) ⟨[], 0, []⟩).dispatched,
    (input.foldl (batchStep B) ⟨[], 0, []⟩).users, hfull, hlt, by simpa using hcat, ?_, ?_⟩
  · unfold dispatchedBatches batchRun batchFlush
    split <;> simp_all
  · unfold dispatchedBatches batchRun batchFlush
    split <;> simp_all

theorem ceil_div_of_decomp {B d r : Nat} (hB : 1 ≤ B) (hr : r < B) :
    (B * d + r + B - 1) / B = d + (if r > 0 then 1 else 0) := by
  have h : B * d + r + B - 1 = B * d + (r + B - 1) := by omega
  rw [h, Nat.mul_add_div (by omega)]
  congr 1
  split
  · exact Nat.div_eq_of_lt_le (by omega) (by omega)
  · exact Nat.div_eq_of_lt (by omega)

/-- C3: for a batch size `B ≥ 1` and `N` users arriving at `SelectMessages`, the
stage dispatches exactly `⌈N/B⌉` batches to `selectWorker` (and counts as many in
`batchCount`), each of size at most `B` and none empty, the last batch has size
`N mod B`, or `B` when `N mod B = 0`, and the concatenation of the batches in
dispatch order is the input sequence. -/
theorem SelectMessages_batches (B : Nat) (hB : 1 ≤ B) (input : List User) :
    (dispatchedBatches B input).length = (input.length + B - 1) / B ∧
    (batchRun B input).batchCount = (input.length + B - 1) / B ∧
    (∀ b ∈ dispatchedBatches B input, 1 ≤ b.length ∧ b.length ≤ B) ∧
    (∀ last, (dispatchedBatches B input).getLast? = some last →
      last.length = if input.length % B = 0 then B else input.length % B) ∧
    (dispatchedBatches B input).flatten = input := by
  obtain ⟨full, rest, hfull, hrest, hcat, hshape, hcount⟩ := dispatchedBatches_shape hB input
  have hN : input.length = B * full.length + rest.length := by
    rw [← hcat, List.length_append, length_flatten_of_full full hfull]
  have hmod : input.length % B = rest.length := by
    rw [hN, Nat.mul_add_mod, Nat.mod_eq_of_lt hrest]
  have hlen : (dispatchedBatches B input).length = (input.length + B - 1) / B := by
    rw [hN, ceil_div_of_decomp hB hrest, hshape]
    split <;> simp
  refine ⟨hlen, hcount.trans hlen, ?_, ?_, ?_⟩
  · intro b hb
    rw [hshape] at hb
    split at hb
    · rcases List.mem_append.1 hb with hb | hb
      · have := hfull b hb; omega
      · simp only [List.mem_singleton] at hb
        subst hb; omega
    · have := hfull b hb; omega
  · intro last hlast
    rw [hshape] at hlast
    rw [hmod]
    split at hlast
    · rename_i hpos
      rw [List.getLast?_concat] at hlast
      cases hlast
      rw [if_neg (by omega)]
    · rename_i hpos
      rw [if_pos (by omega)]
      exact hfull last (List.mem_of_getLast?_eq_some hlast)
  · rw [hshape]
    split
    · simpa using hcat
    · rename_i hpos
      have : rest = [] := List.length_eq_zero.1 (by omega)
      simpa [this] using hcat

/-- C3 at a concrete input: five users and batch size two give the batches of
sizes 2, 2, 1. -/
theorem SelectMessages_batches_witness :
    ((dispatchedBatches 2 [⟨1, "a"⟩, ⟨2, "b"⟩, ⟨3, "c"⟩, ⟨4, "d"⟩, ⟨5, "e"⟩]).length
        = ([(⟨1, "a"⟩ : User), ⟨2, "b"⟩, ⟨3, "c"⟩, ⟨4, "d"⟩, ⟨5, "e"⟩].length + 2 - 1) / 2 ∧
      (batchRun 2 [⟨1, "a"⟩, ⟨2, "b"⟩, ⟨3, "c"⟩, ⟨4, "d"⟩, ⟨5, "e"⟩]).batchCount
        = ([(⟨1, "a"⟩ : User), ⟨2, "b"⟩, ⟨3, "c"⟩, ⟨4, "d"⟩, ⟨5, "e"⟩].length + 2 - 1) / 2 ∧
      (∀ b ∈ dispatchedBatches 2 [⟨1, "a"⟩, ⟨2, "b"⟩, ⟨3, "c"⟩, ⟨4, "d"⟩, ⟨5, "e"⟩],
        1 ≤ b.length ∧ b.length ≤ 2) ∧
      (∀ last,
        (dispatchedBatches 2 [⟨1, "a"⟩, ⟨2, "b"⟩, ⟨3, "c"⟩, ⟨4, "d"⟩, ⟨5, "e"⟩]).getLast?
          = some last →
        last.length =
          if [(⟨1, "a"⟩ : User), ⟨2, "b"⟩, ⟨3, "c"⟩, ⟨4, "d"⟩, ⟨5, "e"⟩].length % 2 = 0 then 2
          else [(⟨1, "a"⟩ : User), ⟨2, "b"⟩, ⟨3, "c"⟩, ⟨4, "d"⟩, ⟨5, "e"⟩].length % 2) ∧
      (dispatchedBatches 2 [⟨1, "a"⟩, ⟨2, "b"⟩, ⟨3, "c"⟩, ⟨4, "d"⟩, ⟨5, "e"⟩]).flatten
        = [⟨1, "a"⟩, ⟨2, "b"⟩, ⟨3, "c"⟩, ⟨4, "d"⟩, ⟨5, "e"⟩]) ∧
    dispatchedBatches 2 [⟨1, "a"⟩, ⟨2, "b"⟩, ⟨3, "c"⟩, ⟨4, "d"⟩, ⟨5, "e"⟩]
      = [[⟨1, "a"⟩, ⟨2, "b"⟩], [⟨3, "c"⟩, ⟨4, "d"⟩], [⟨5, "e"⟩]] :=
  ⟨SelectMessages_batches 2 (by decide) _, by decide⟩

/-- C6: when `GetMessages` fails for a batch, `selectWorker` sends no message for
it; in every case it sends on `done` exactly once, and after a successful fetch it
sends exactly the returned messages in order.  Consequently, for every batch size
and every interleaving of the workers, the messages sent by `SelectMessages` are,
as a multiset, exactly the messages returned for the batches whose fetch
succeeded: a failed batch contributes nothing. -/
theorem selectWorker_drop_on_error
    (GetMessages : List User → Except Error (List MsgID)) (B : Nat) (sched : List Nat)
    (input : List User) :
    (∀ u e, GetMessages u = .error e →
      selectWorker GetMessages u = [WorkerEvent.done] ∧
      sentMessages (selectWorker GetMessages u) = []) ∧
    (∀ u, (selectWorker GetMessages u).count WorkerEvent.done = 1) ∧
    (∀ u res, GetMessages u = .ok res →
      selectWorker GetMessages u = res.map WorkerEvent.send ++ [WorkerEvent.done] ∧
      sentMessages (selectWorker GetMessages u) = res) ∧
    (SelectMessages GetMessages B sched input).Perm
      (((dispatchedBatches B input).filterMap
        (fun u => match GetMessages u with
          | .ok res => some res
          | .error _ => none)).flatten) := by
  refine ⟨?_, count_done_selectWorker GetMessages, ?_, ?_⟩
  · intro u e he
    rw [sentMessages_selectWorker]
    simp [selectWorker, fetched, he]
  · intro u res hres
    rw [sentMessages_selectWorker]
    simp [selectWorker, fetched, hres]
  · refine (SelectMessages_perm GetMessages B sched input).trans (List.Perm.of_eq ?_)
    generalize dispatchedBatches B input = bs
    induction bs with
    | nil => rfl
    | cons b bs ih =>
      rw [List.flatMap_cons, List.filterMap_cons, ih]
      unfold fetched
      cases GetMessages b <;> simp

/-! ## Classification stage: `CheckSpam` -/

/-- The state of the worker pool of `CheckSpam`: the identifiers not yet received
from `in`, for every worker the identifier it has received and not yet handled,
and the values sent on `out` so far. -/
structure PoolState where
  input : List MsgID
  held : List (Option MsgID)
  out : List MsgData
deriving DecidableEq, Repr

/-- One step of worker `w` of `CheckSpam`.  An idle worker receives the next
identifier from `in` (and leaves its loop when `in` is closed and drained); a
worker holding an identifier runs the loop body on it:
```go
result, err := HasSpam(id)
if err != nil {
    continue
}
out <- MsgData{id, result}
``` -/
def workerStep (HasSpam : MsgID → Except Error Bool) (s : PoolState) (w : Nat) : PoolState :=
  match s.held[w]? with
  | none => s
  | some (some id) =>
    match HasSpam id with
    | .error _ => { input := s.input, held := s.held.set w none, out := s.out }
    | .ok result =>
      { input := s.input, held := s.held.set w none, out := s.out ++ [⟨id, result⟩] }
  | some none =>
    match s.input with
    | [] => s
    | id :: rest => { input := rest, held := s.held.set w (some id), out := s.out }

/-- The loop body of a `CheckSpam` worker on one identifier, as the optional value
it sends. -/
def classify (HasSpam : MsgID → Except Error Bool) (id : MsgID) : Option MsgData :=
  match HasSpam id with
  | .error _ => none
  | .ok result => some ⟨id, result⟩

/-- The rest of the run once the schedule is used up: the workers handle the
identifiers they hold, in worker order, and then, if the pool has a worker at
all, the remaining input is handled in order.  A pool without workers receives
nothing. -/
def poolFinish (HasSpam : MsgID → Except Error Bool) (s : PoolState) : List MsgData :=
  s.out ++ s.held.reduceOption.filterMap (classify HasSpam) ++
    (if s.held.length > 0 then s.input.filterMap (classify HasSpam) else [])

/-- The stage `CheckSpam` with `numWorkers = HasSpamMaxAsyncRequests` workers that
all receive from the same `in` and send on the same `out`; `sched` lists the
workers in the order in which they take their steps.  The result is the sequence
sent on `out`. -/
def CheckSpam (HasSpam : MsgID → Except Error Bool) (numWorkers : Nat) (sched : List Nat)
    (input : List MsgID) : List MsgData :=
  poolFinish HasSpam
    (sched.foldl (workerStep HasSpam) ⟨input, List.replicate numWorkers none, []⟩)

/-- Everything the pool has sent or will still send, were every identifier
handled. -/
def poolTotal (HasSpam : MsgID → Except Error Bool) (s : PoolState) : List MsgData :=
  s.out ++ (s.held.reduceOption ++ s.input).filterMap (classify HasSpam)

theorem reduceOption_release (id : MsgID) :
    ∀ (held : List (Option MsgID)) (w : Nat), held[w]? = some (some id) →
      held.reduceOption.Perm (id :: (held.set w none).reduceOption) := by
  intro held
  induction held with
  | nil => intro w hw; simp at hw
  | cons h hs ih =>
    intro w hw
    cases w with
    | zero =>
      simp only [List.getElem?_cons_zero, Option.some.injEq] at hw
      subst hw
      simp [List.reduceOption_cons_of_some, List.reduceOption_cons_of_none]
    | succ w =>
      simp only [List.getElem?_cons_succ] at hw
      simp only [List.set_cons_succ]
      cases h with
      | none =>
        simp only [List.reduceOption_cons_of_none]
        exact ih w hw
      | some x =>
        simp only [List.reduceOption_cons_of_some]
        exact (List.Perm.cons x (ih w hw)).trans (List.Perm.swap id x _)

theorem reduceOption_take (id : MsgID) :
    ∀ (held : List (Option MsgID)) (w : Nat), held[w]? = some none →
      (held.set w (some id)).reduceOption.Perm (id :: held.reduceOption) := by
  intro held
  induction held with
  | nil => intro w hw; simp at hw
  | cons h hs ih =>
    intro w hw
    cases w with
    | zero =>
      simp only [List.getElem?_cons_zero, Option.some.injEq] at hw
      subst hw
      simp [List.reduceOption_cons_of_some, List.reduceOption_cons_of_none]
    | succ w =>
      simp only [List.getElem?_cons_succ] at hw
      simp only [List.set_cons_succ]
      cases h with
      | none =>
        simp only [List.reduceOption_cons_of_none]
        exact ih w hw
      | some x =>
        simp only [List.reduceOption_cons_of_some]
        exact (List.Perm.cons x (ih w hw)).trans (List.Perm.swap id x _)

theorem reduceOption_replicate_none (n : Nat) :
    (List.replicate n (none : Option MsgID)).reduceOption = [] := by
  induction n with
  | zero => rfl
  | succ n ih => rw [List.replicate_succ, List.reduceOption_cons_of_none, ih]

theorem workerStep_held_length (HasSpam : MsgID → Except Error Bool) (s : PoolState) (w : Nat) :
    (workerStep HasSpam s w).held.length = s.held.length := by
  unfold workerStep
  split
  · rfl
  · split <;> simp
  · split <;> simp

theorem workerStep_total (HasSpam : MsgID → Except Error Bool) (s : PoolState) (w : Nat) :
    (poolTotal HasSpam (workerStep HasSpam s w)).Perm (poolTotal HasSpam s) := by
  unfold workerStep
  split
  · exact List.Perm.refl _
  · rename_i id hw
    have hrel := reduceOption_release id s.held w hw
    have hperm : ((s.held.reduceOption ++ s.input).filterMap (classify HasSpam)).Perm
        ((id :: ((s.held.set w none).reduceOption ++ s.input)).filterMap (classify HasSpam)) :=
      List.Perm.filterMap _ (List.Perm.append_right s.input hrel)
    split
    · rename_i e he
      have hc : classify HasSpam id = none := by simp [classify, he]
      rw [List.filterMap_cons_none hc] at hperm
      exact List.Perm.append_left s.out hperm.symm
    · rename_i result he
      have hc : classify HasSpam id = some ⟨id, result⟩ := by simp [classify, he]
      rw [List.filterMap_cons_some hc] at hperm
      unfold poolTotal
      simp only [List.append_assoc, List.singleton_append]
      exact List.Perm.append_left s.out hperm.symm
  · rename_i hw
    split
    · exact List.Perm.refl _
    · rename_i id rest hin
      have htake := reduceOption_take id s.held w hw
      unfold poolTotal
      simp only [hin]
      refine List.Perm.append_left s.out (List.Perm.filterMap _ ?_)
      exact (List.Perm.append_right rest htake).trans List.perm_middle.symm

theorem poolRun_total (HasSpam : MsgID → Except Error Bool) (sched : List Nat) :
    ∀ s : PoolState,
      (poolTotal HasSpam (sched.foldl (workerStep HasSpam) s)).Perm (poolTotal HasSpam s) ∧
      (sched.foldl (workerStep HasSpam) s).held.length = s.held.length := by
  induction sched with
  | nil => intro s; exact ⟨List.Perm.refl _, rfl⟩
  | cons w ws ih =>
    intro s
    obtain ⟨h1, h2⟩ := ih (workerStep HasSpam s w)
    exact ⟨h1.trans (workerStep_total HasSpam s w),
      h2.trans (workerStep_held_length HasSpam s w)⟩

theorem poolFinish_subset (HasSpam : MsgID → Except Error Bool) (s : PoolState) :
    poolFinish HasSpam s ⊆ poolTotal HasSpam s := by
  intro d hd
  unfold poolFinish at hd
  unfold poolTotal
  simp only [List.filterMap_append, List.mem_append] at hd ⊢
  rcases hd with (h | h) | h
  · exact Or.inl h
  · exact Or.inr (Or.inl h)
  · split at h
    · exact Or.inr (Or.inr h)
    · cases h

theorem poolFinish_eq (HasSpam : MsgID → Except Error Bool) (s : PoolState)
    (h : 0 < s.held.length) : poolFinish HasSpam s = poolTotal HasSpam s := by
  unfold poolFinish poolTotal
  rw [if_pos h, List.filterMap_append, List.append_assoc]

/-- With at least one worker, `CheckSpam` sends, up to order, one value per input
occurrence of an identifier whose check succeeded. -/
theorem CheckSpam_perm (HasSpam : MsgID → Except Error Bool) {numWorkers : Nat}
    (hW : 1 ≤ numWorkers) (sched : List Nat) (input : List MsgID) :
    (CheckSpam HasSpam numWorkers sched input).Perm (input.filterMap (classify HasSpam)) := by
  obtain ⟨h1, h2⟩ :=
    poolRun_total HasSpam sched ⟨input, List.replicate numWorkers none, []⟩
  unfold CheckSpam
  rw [poolFinish_eq HasSpam _ (by rw [h2]; simpa using hW)]
  refine h1.trans (List.Perm.of_eq ?_)
  simp [poolTotal, reduceOption_replicate_none]

/-- Whatever the number of workers, every value sent by `CheckSpam` stems from an
input identifier whose check succeeded. -/
theorem CheckSpam_mem (HasSpam : MsgID → Except Error Bool) (numWorkers : Nat)
    (sched : List Nat) (input : List MsgID) :
    ∀ d ∈ CheckSpam HasSpam numWorkers sched input,
      d.ID ∈ input ∧ HasSpam d.ID = .ok d.HasSpam := by
  intro d hd
  obtain ⟨h1, _⟩ :=
    poolRun_total HasSpam sched ⟨input, List.replicate numWorkers none, []⟩
  have hd2 := h1.subset (poolFinish_subset HasSpam _ hd)
  simp only [poolTotal, reduceOption_replicate_none, List.nil_append,
    List.mem_filterMap] at hd2
  obtain ⟨id, hid, hc⟩ := hd2
  unfold classify at hc
  split at hc
  · cases hc
  · rename_i result he
    cases hc
    exact ⟨hid, he⟩

/-! ## The formatted line determines the result -/

/-- The number a string of decimal digits denotes. -/
def decodeDecimal (cs : List Char) : Nat :=
  cs.foldl (fun acc c => 10 * acc + (c.toNat - 48)) 0

theorem digitChar_value : ∀ k, k < 10 → (Nat.digitChar k).toNat - 48 = k := by decide

theorem toDigitsCore_append (fuel : Nat) :
    ∀ (n : Nat) (ds : List Char),
      Nat.toDigitsCore 10 fuel n ds = Nat.toDigitsCore 10 fuel n [] ++ ds := by
  induction fuel with
  | zero => intro n ds; simp [Nat.toDigitsCore]
  | succ fuel ih =>
    intro n ds
    simp only [Nat.toDigitsCore]
    split
    · simp
    · rw [ih (n / 10) (Nat.digitChar (n % 10) :: ds), ih (n / 10) [Nat.digitChar (n % 10)]]
      simp

theorem decodeDecimal_concat (cs : List Char) (c : Char) :
    decodeDecimal (cs ++ [c]) = 10 * decodeDecimal cs + (c.toNat - 48) := by
  simp [decodeDecimal, List.foldl_append]

theorem decodeDecimal_toDigitsCore (fuel : Nat) :
    ∀ n : Nat, n < fuel → decodeDecimal (Nat.toDigitsCore 10 fuel n []) = n := by
  induction fuel with
  | zero => intro n hn; omega
  | succ fuel ih =>
    intro n hn
    simp only [Nat.toDigitsCore]
    split
    · rename_i hq
      have hlt : n % 10 < 10 := Nat.mod_lt _ (by decide)
      have hv := digitChar_value (n % 10) hlt
      simp only [decodeDecimal, List.foldl_cons, List.foldl_nil, Nat.mul_zero, Nat.zero_add, hv]
      omega
    · rename_i hq
      have hlt : n % 10 < 10 := Nat.mod_lt _ (by decide)
      have hv := digitChar_value (n % 10) hlt
      rw [toDigitsCore_append, decodeDecimal_concat, ih (n / 10) (by omega), hv]
      omega

theorem toDigits_injective {m n : Nat} (h : Nat.toDigits 10 m = Nat.toDigits 10 n) : m = n := by
  have hm := decodeDecimal_toDigitsCore (m + 1) m (Nat.lt_succ_self m)
  have hn := decodeDecimal_toDigitsCore (n + 1) n (Nat.lt_succ_self n)
  unfold Nat.toDigits at h
  rw [h] at hm
  exact hm.symm.trans hn

theorem formatLine_data (d : MsgData) :
    (formatLine d).data =
      (if d.HasSpam then ['t', 'r', 'u', 'e'] else ['f', 'a', 'l', 's', 'e'])
        ++ ' ' :: Nat.toDigits 10 d.ID := by
  obtain ⟨n, b⟩ := d
  cases b <;>
    simp [formatLine, toString, Nat.repr, String.data_append, List.asString]

/-- Two results with the same formatted line are the same result. -/
theorem formatLine_injective {a b : MsgData} (h : formatLine a = formatLine b) : a = b := by
  have hd : (formatLine a).data = (formatLine b).data := by rw [h]
  rw [formatLine_data, formatLine_data] at hd
  obtain ⟨na, ba⟩ := a
  obtain ⟨nb, bb⟩ := b
  cases ba <;> cases bb <;> simp at hd
  · rw [toDigits_injective hd]
  · rw [toDigits_injective hd]

/-! ### Claims about the classification stage -/

/-- C5: if `HasSpam` returns an error for a message identifier, then, for every
number of workers and every schedule, `CheckSpam` sends no `MsgData` with that ID,
and `CombineResults` applied to the output of `CheckSpam` emits no line for that
identifier, neither `true <ID>` nor `false <ID>`. -/
theorem CheckSpam_drop_on_error (HasSpam : MsgID → Except Error Bool) (numWorkers : Nat)
    (sched : List Nat) (input : List MsgID) (id : MsgID) (e : Error)
    (herr : HasSpam id = .error e) :
    (∀ d ∈ CheckSpam HasSpam numWorkers sched input, d.ID ≠ id) ∧
    (∀ flag : Bool,
      formatLine ⟨id, flag⟩ ∉ CombineResults (CheckSpam HasSpam numWorkers sched input)) := by
  have hno : ∀ d ∈ CheckSpam HasSpam numWorkers sched input, d.ID ≠ id := by
    intro d hd hid
    have hok := (CheckSpam_mem HasSpam numWorkers sched input d hd).2
    rw [hid, herr] at hok
    cases hok
  refine ⟨hno, ?_⟩
  intro flag hmem
  unfold CombineResults at hmem
  obtain ⟨d, hd, hfmt⟩ := List.mem_map.1 hmem
  have hd2 := (sortedResults_perm _).subset hd
  have hdeq : d = ⟨id, flag⟩ := formatLine_injective hfmt
  exact hno d hd2 (by rw [hdeq])

/-- C5 at a concrete input: the check of message 2 fails, two workers. -/
theorem CheckSpam_drop_on_error_witness :
    ((∀ d ∈ CheckSpam (fun id => if id = 2 then .error "unavailable" else .ok (id % 2 = 1))
        2 [0, 1, 1, 0] [1, 2, 3, 4], d.ID ≠ 2) ∧
      (∀ flag : Bool, formatLine ⟨2, flag⟩ ∉
        CombineResults
          (CheckSpam (fun id => if id = 2 then .error "unavailable" else .ok (id % 2 = 1))
            2 [0, 1, 1, 0] [1, 2, 3, 4]))) ∧
    CombineResults
      (CheckSpam (fun id => if id = 2 then .error "unavailable" else .ok (id % 2 = 1))
        2 [0, 1, 1, 0] [1, 2, 3, 4]) = ["true 1", "true 3", "false 4"] :=
  ⟨CheckSpam_drop_on_error _ 2 [0, 1, 1, 0] [1, 2, 3, 4] 2 "unavailable" rfl, by decide⟩

/-- The line `CombineResults` emits for an identifier whose check succeeded, none
for one whose check failed. -/
def lineOf (HasSpam : MsgID → Except Error Bool) (id : MsgID) : Option String :=
  match HasSpam id with
  | .error _ => none
  | .ok result => some (formatLine ⟨id, result⟩)

theorem lineOf_eq (HasSpam : MsgID → Except Error Bool) (id : MsgID) :
    lineOf HasSpam id = (classify HasSpam id).map formatLine := by
  unfold lineOf classify
  cases HasSpam id <;> rfl

/-- C7: with at least one worker, for every schedule and every `HasSpam`, the lines
emitted by `CombineResults` on the output of `CheckSpam` are, as a multiset,
exactly one line `<HasSpam> <ID>` per input occurrence of a message whose check
succeeded, carrying the boolean the check returned; the number of lines is the
number of successfully checked input messages. -/
theorem CheckSpam_CombineResults_lines (HasSpam : MsgID → Except Error Bool)
    (numWorkers : Nat) (hW : 1 ≤ numWorkers) (sched : List Nat) (input : List MsgID) :
    (CombineResults (CheckSpam HasSpam numWorkers sched input)).Perm
      (input.filterMap (lineOf HasSpam)) ∧
    (CombineResults (CheckSpam HasSpam numWorkers sched input)).length =
      input.countP (fun id => (HasSpam id).isOk) := by
  have hperm : (CombineResults (CheckSpam HasSpam numWorkers sched input)).Perm
      (input.filterMap (lineOf HasSpam)) := by
    unfold CombineResults
    refine (((sortedResults_perm _).trans (CheckSpam_perm HasSpam hW sched input)).map
      formatLine).trans (List.Perm.of_eq ?_)
    rw [List.map_filterMap]
    congr 1
    funext id
    exact (lineOf_eq HasSpam id).symm
  refine ⟨hperm, ?_⟩
  rw [hperm.length_eq]
  clear hperm
  induction input with
  | nil => rfl
  | cons id ids ih =>
    rw [List.countP_cons, ← ih]
    unfold lineOf
    cases h : HasSpam id <;> simp [List.filterMap_cons, h, Except.isOk, Except.toBool]

/-- C7 at a concrete input: three workers, message 2 fails, message 1 arrives
twice. -/
theorem CheckSpam_CombineResults_lines_witness :
    ((CombineResults
        (CheckSpam (fun id => if id = 2 then .error "unavailable" else .ok (id % 2 = 1))
          3 [2, 0, 2, 1] [1, 2, 4, 1])).Perm
        ([1, 2, 4, 1].filterMap
          (lineOf (fun id => if id = 2 then .error "unavailable" else .ok (id % 2 = 1)))) ∧
      (CombineResults
        (CheckSpam (fun id => if id = 2 then .error "unavailable" else .ok (id % 2 = 1))
          3 [2, 0, 2, 1] [1, 2, 4, 1])).length =
        [1, 2, 4, 1].countP
          (fun id => (if id = 2 then (.error "unavailable" : Except Error Bool)
            else .ok (id % 2 = 1)).isOk)) ∧
    CombineResults
      (CheckSpam (fun id => if id = 2 then .error "unavailable" else .ok (id % 2 = 1))
        3 [2, 0, 2, 1] [1, 2, 4, 1]) = ["true 1", "true 1", "false 4"] :=
  ⟨CheckSpam_CombineResults_lines _ 3 (by decide) [2, 0, 2, 1] [1, 2, 4, 1], by decide⟩

/-! ## Orchestrator: `RunPipeline` -/

/-- The next channel operation of a stage function that is running: a receive from
`in` (the continuation gets `some v`, or `none` once `in` is closed and drained),
a send on `out`, or the return of the function. -/
inductive Op (α σ : Type) where
  | recv (k : Option α → σ)
  | send (v : α) (k : σ)
  | ret

/-- The type `cmd` of a stage, `func(in, out chan interface{})`, as a program over
local states `σ`: the state in which the function starts and, for every state,
the next operation on its two channels.  A stage may run goroutines of its own
and so be ready for several operations at once; the argument `c` of `next`
stands for the way the scheduler resolves such a choice. -/
structure cmd (α σ : Type) where
  init : σ
  next : σ → Nat → Op α σ

/-- One goroutine started by `RunPipeline`: the stage function and the two
channels it is called with.  Channels are numbered in the order of their
creation by `make`; `none` is the nil channel. -/
structure StageGoroutine (α σ : Type) where
  cmdFunc : cmd α σ
  inp : Option Nat
  out : Nat

/-- The local state of the loop of `RunPipeline`: the variable `in`, the number
of channels made so far, and the goroutines started so far. -/
structure PipelineState (α σ : Type) where
  inp : Option Nat
  nextChan : Nat
  spawned : List (StageGoroutine α σ)

/-- One iteration of `for _, cmdFunc := range cmds` in `RunPipeline`:
```go
out := make(chan interface{})
go func(cmdFunc cmd, in, out chan interface{}, done chan<- struct{}) { ... }(cmdFunc, in, out, done)
in = out
``` -/
def pipelineStep {α σ : Type} (s : PipelineState α σ) (cmdFunc : cmd α σ) :
    PipelineState α σ :=
  { inp := some s.nextChan,
    nextChan := s.nextChan + 1,
    spawned := s.spawned ++ [⟨cmdFunc, s.inp, s.nextChan⟩] }

/-- The loop of `RunPipeline` that wires and starts the stages; `in` starts as
the nil channel (`var in chan interface{}`). -/
def RunPipeline {α σ : Type} (cmds : List (cmd α σ)) : PipelineState α σ :=
  cmds.foldl pipelineStep ⟨none, 0, []⟩

/-- Where a stage goroutine of `RunPipeline` stands in its body
```go
cmdFunc(in, out)
close(out)
done <- struct{}{}
```
inside `cmdFunc` at a local state, between the return of `cmdFunc` and
`close(out)`, between `close(out)` and the send on `done`, or past that send. -/
inductive Phase (σ : Type) where
  | running (s : σ)
  | returned
  | closed
  | signalled
deriving DecidableEq, Repr

/-- The state of a run of the started goroutines: for goroutine `i` its phase,
the values it has received from its `in` and the values whose send on its `out`
has completed; the channels that have been closed; and the number of receives
from `done` the loop at the end of `RunPipeline` has completed. -/
structure Runtime (α σ : Type) where
  phase : Nat → Phase σ
  received : Nat → List α
  sent : Nat → List α
  closedChans : List Nat
  doneReceived : Nat

/-- A step of a run: goroutine `i` moves on its own, or a send of goroutine `i`
meets a receive of goroutine `j` on an unbuffered channel.  The arguments `c`,
`ci`, `cj` resolve the choices the stage functions leave to the scheduler. -/
inductive Action where
  | solo (i c : Nat)
  | sync (i j ci cj : Nat)
deriving DecidableEq, Repr

/-- The function `f` with its value at `i` replaced. -/
def setAt {β : Type} (f : Nat → β) (i : Nat) (v : β) : Nat → β :=
  fun x => if x = i then v else f x

/-- The state in which all the goroutines have been started and none has moved. -/
def startAll {α σ : Type} (gs : List (StageGoroutine α σ)) : Runtime α σ :=
  { phase := fun i =>
      match gs[i]? with
      | some g => .running g.cmdFunc.init
      | none => .signalled
    received := fun _ => []
    sent := fun _ => []
    closedChans := []
    doneReceived := 0 }

/-- Goroutine `i` of the goroutines `gs` started by `RunPipeline` moves on its
own.  A stage function that is at its `return` returns; one that is at a receive
gets `none` if its `in` has been closed, and otherwise stays blocked (for ever on
the nil channel); one that is at a send stays blocked, since every channel is
unbuffered.  After the return the goroutine closes its `out`, and then completes
its send on `done` as long as the final loop of `RunPipeline`, which receives
`numGoroutines` times, is still receiving.  A step that is not enabled leaves the
state as it is. -/
def soloStep {α σ : Type} (gs : List (StageGoroutine α σ)) (numGoroutines : Nat)
    (rt : Runtime α σ) (i c : Nat) : Runtime α σ :=
  match gs[i]? with
  | none => rt
  | some g =>
    match rt.phase i with
    | .running s =>
      match g.cmdFunc.next s c with
      | .ret => { rt with phase := setAt rt.phase i .returned }
      | .recv k =>
        match g.inp with
        | none => rt
        | some c =>
          if c ∈ rt.closedChans then { rt with phase := setAt rt.phase i (.running (k none)) }
          else rt
      | .send _ _ => rt
    | .returned =>
      { rt with phase := setAt rt.phase i .closed, closedChans := g.out :: rt.closedChans }
    | .closed =>
      if rt.doneReceived < numGoroutines then
        { rt with phase := setAt rt.phase i .signalled, doneReceived := rt.doneReceived + 1 }
      else rt
    | .signalled => rt

/-- A send of goroutine `i` meets a receive of goroutine `j`: when `i` is at a send
of `v`, `j` is at a receive and the `in` of `j` is the `out` of `i`, the value
passes from `i` to `j` and both continue.  Otherwise the state stays as it is. -/
def syncStep {α σ : Type} (gs : List (StageGoroutine α σ)) (rt : Runtime α σ)
    (i j ci cj : Nat) : Runtime α σ :=
  match gs[i]?, gs[j]? with
  | some gi, some gj =>
    match rt.phase i, rt.phase j with
    | .running si, .running sj =>
      match gi.cmdFunc.next si ci, gj.cmdFunc.next sj cj with
      | .send v k, .recv f =>
        if gj.inp = some gi.out then
          { rt with
            phase := setAt (setAt rt.phase i (.running k)) j (.running (f (some v)))
            sent := setAt rt.sent i (rt.sent i ++ [v])
            received := setAt rt.received j (rt.received j ++ [v]) }
        else rt
      | _, _ => rt
    | _, _ => rt
  | _, _ => rt

/-- One step of a run of the goroutines started by `RunPipeline`. -/
def pipelineAct {α σ : Type} (gs : List (StageGoroutine α σ)) (numGoroutines : Nat)
    (rt : Runtime α σ) : Action → Runtime α σ
  | .solo i c => soloStep gs numGoroutines rt i c
  | .sync i j ci cj => syncStep gs rt i j ci cj

/-- The state reached by the call `RunPipeline(cmds...)` after the steps `acts`:
the goroutines are those started by the loop of `RunPipeline`, and
`numGoroutines := len(cmds)`. -/
def pipelineRun {α σ : Type} (cmds : List (cmd α σ)) (acts : List Action) : Runtime α σ :=
  acts.foldl (pipelineAct (RunPipeline cmds).spawned cmds.length)
    (startAll (RunPipeline cmds).spawned)

/-- A stage in the words of the specification: a function from the input sequence
(`none` when the stage has no input) to the output sequence. -/
abbrev StageFn (α : Type) := Option (List α) → List α

/-- The orchestrator contract in the words of the specification: the stage
functions composed from left to right, the output sequence of each stage being
the input sequence of the next. -/
def composeStages {α : Type} : List (StageFn α) → Option (List α) → Option (List α)
  | [], source => source
  | stage :: stages, source => composeStages stages (some (stage source))

/-- The channel created just before channel `n`, the nil channel before the
first. -/
def prevChan (n : Nat) : Option Nat := if n = 0 then none else some (n - 1)

theorem RunPipeline_concat {α σ : Type} (cmds : List (cmd α σ)) (f : cmd α σ) :
    RunPipeline (cmds ++ [f]) = pipelineStep (RunPipeline cmds) f := by
  simp [RunPipeline, List.foldl_append]

/-- The wiring built by the loop of `RunPipeline`. -/
theorem RunPipeline_wiring {α σ : Type} (cmds : List (cmd α σ)) :
    (RunPipeline cmds).nextChan = cmds.length ∧
    (RunPipeline cmds).inp = prevChan cmds.length ∧
    (RunPipeline cmds).spawned.length = cmds.length ∧
    (∀ (i : Nat) (g : StageGoroutine α σ), (RunPipeline cmds).spawned[i]? = some g →
      g.out = i ∧ g.inp = prevChan i ∧ cmds[i]? = some g.cmdFunc) := by
  induction cmds using List.reverseRecOn with
  | nil =>
    refine ⟨rfl, rfl, rfl, ?_⟩
    intro i g hg
    simp [RunPipeline] at hg
  | append_singleton cmds f ih =>
    obtain ⟨hnext, hinp, hlen, hstage⟩ := ih
    have hstep : RunPipeline (cmds ++ [f])
        = { inp := some cmds.length, nextChan := cmds.length + 1,
            spawned := (RunPipeline cmds).spawned
              ++ [⟨f, prevChan cmds.length, cmds.length⟩] } := by
      rw [RunPipeline_concat, pipelineStep, hnext, hinp]
    refine ⟨?_, ?_, ?_, ?_⟩
    · rw [hstep]; simp
    · rw [hstep]; simp [prevChan]
    · rw [hstep]; simp [hlen]
    · intro i g hg
      rw [hstep] at hg
      simp only at hg
      rcases Nat.lt_or_ge i cmds.length with hi | hi
      · rw [List.getElem?_append_left (by rw [hlen]; exact hi)] at hg
        obtain ⟨h1, h2, h3⟩ := hstage i g hg
        refine ⟨h1, h2, ?_⟩
        rw [List.getElem?_append_left hi]; exact h3
      · rw [List.getElem?_append_right (by rw [hlen]; exact hi), hlen] at hg
        have hi0 : i - cmds.length = 0 := by
          by_contra hne
          obtain ⟨k, hk⟩ := Nat.exists_eq_succ_of_ne_zero hne
          rw [hk] at hg
          simp at hg
        have hieq : i = cmds.length := by omega
        subst hieq
        rw [hi0] at hg
        simp only [List.getElem?_cons_zero, Option.some.injEq] at hg
        subst hg
        exact ⟨rfl, rfl, by simp⟩

/-- A step changes the sent and received sequences only by passing one value from
a sender to the receiver at the other end of its `out`. -/
theorem pipelineAct_flow {α σ : Type} (gs : List (StageGoroutine α σ)) (n : Nat)
    (rt : Runtime α σ) (a : Action) :
    ((pipelineAct gs n rt a).sent = rt.sent ∧
      (pipelineAct gs n rt a).received = rt.received) ∨
    ∃ (i j : Nat) (gi gj : StageGoroutine α σ) (v : α),
      gs[i]? = some gi ∧ gs[j]? = some gj ∧ gj.inp = some gi.out ∧
      (pipelineAct gs n rt a).sent = setAt rt.sent i (rt.sent i ++ [v]) ∧
      (pipelineAct gs n rt a).received = setAt rt.received j (rt.received j ++ [v]) := by
  cases a with
  | solo i c =>
    left
    simp only [pipelineAct]
    unfold soloStep
    repeat' split
    all_goals exact ⟨rfl, rfl⟩
  | sync i j ci cj =>
    simp only [pipelineAct]
    unfold syncStep
    split
    · rename_i gi gj hi hj
      split
      · split
        · rename_i v k f _ _
          split
          · rename_i hchan
            right
            exact ⟨i, j, gi, gj, v, hi, hj, hchan, rfl, rfl⟩
          · left; exact ⟨rfl, rfl⟩
        · left; exact ⟨rfl, rfl⟩
      · left; exact ⟨rfl, rfl⟩
    · left; exact ⟨rfl, rfl⟩

/-- The wiring facts the data flow depends on: no two goroutines share an output
channel, and no two goroutines share an input channel. -/
structure Wired {α σ : Type} (gs : List (StageGoroutine α σ)) : Prop where
  out_inj : ∀ (i j : Nat) (gi gj : StageGoroutine α σ),
    gs[i]? = some gi → gs[j]? = some gj → gi.out = gj.out → i = j
  inp_inj : ∀ (i j : Nat) (gi gj : StageGoroutine α σ) (c : Nat),
    gs[i]? = some gi → gs[j]? = some gj → gi.inp = some c → gj.inp = some c → i = j

/-- What holds of the sequences sent and received in every state of a run. -/
structure FlowInv {α σ : Type} (gs : List (StageGoroutine α σ)) (rt : Runtime α σ) : Prop where
  link : ∀ (i j : Nat) (gi gj : StageGoroutine α σ),
    gs[i]? = some gi → gs[j]? = some gj → gj.inp = some gi.out → rt.received j = rt.sent i
  unread : ∀ (i : Nat) (gi : StageGoroutine α σ), gs[i]? = some gi →
    (∀ (j : Nat) (gj : StageGoroutine α σ), gs[j]? = some gj → gj.inp ≠ some gi.out) →
    rt.sent i = []
  source : ∀ (j : Nat) (gj : StageGoroutine α σ), gs[j]? = some gj → gj.inp = none →
    rt.received j = []
  absent : ∀ i : Nat, gs[i]? = none → rt.sent i = [] ∧ rt.received i = []

theorem startAll_flowInv {α σ : Type} (gs : List (StageGoroutine α σ)) :
    FlowInv gs (startAll gs) :=
  ⟨fun _ _ _ _ _ _ _ => rfl, fun _ _ _ _ => rfl, fun _ _ _ _ => rfl, fun _ _ => ⟨rfl, rfl⟩⟩

theorem pipelineAct_flowInv {α σ : Type} {gs : List (StageGoroutine α σ)} (hw : Wired gs)
    (n : Nat) {rt : Runtime α σ} (h : FlowInv gs rt) (a : Action) :
    FlowInv gs (pipelineAct gs n rt a) := by
  rcases pipelineAct_flow gs n rt a with ⟨hs, hr⟩ | ⟨i0, j0, gi0, gj0, v, hi0, hj0, hchan, hs, hr⟩
  · refine ⟨?_, ?_, ?_, ?_⟩
    · intro i j gi gj hi hj hc
      rw [hs, hr]; exact h.link i j gi gj hi hj hc
    · intro i gi hi hno
      rw [hs]; exact h.unread i gi hi hno
    · intro j gj hj hnil
      rw [hr]; exact h.source j gj hj hnil
    · intro i hi
      rw [hs, hr]; exact h.absent i hi
  · refine ⟨?_, ?_, ?_, ?_⟩
    · intro i j gi gj hi hj hc
      rw [hs, hr]
      by_cases hii : i = i0
      · subst hii
        have hg : gi = gi0 := Option.some.inj (hi.symm.trans hi0)
        subst hg
        have hjj : j = j0 := hw.inp_inj j j0 gj gj0 gi.out hj hj0 hc hchan
        subst hjj
        simp only [setAt, if_true]
        rw [h.link i j gi gj hi hj hc]
      · have hjj : j ≠ j0 := by
          intro hjj
          subst hjj
          have hg : gj = gj0 := Option.some.inj (hj.symm.trans hj0)
          subst hg
          have hout : gi.out = gi0.out := Option.some.inj (hc.symm.trans hchan)
          exact hii (hw.out_inj i i0 gi gi0 hi hi0 hout)
        simp only [setAt, if_neg hii, if_neg hjj]
        exact h.link i j gi gj hi hj hc
    · intro i gi hi hno
      rw [hs]
      have hii : i ≠ i0 := by
        intro hii
        subst hii
        have hg : gi = gi0 := Option.some.inj (hi.symm.trans hi0)
        subst hg
        exact hno j0 gj0 hj0 hchan
      simp only [setAt, if_neg hii]
      exact h.unread i gi hi hno
    · intro j gj hj hnil
      rw [hr]
      have hjj : j ≠ j0 := by
        intro hjj
        subst hjj
        have hg : gj = gj0 := Option.some.inj (hj.symm.trans hj0)
        subst hg
        rw [hnil] at hchan
        cases hchan
      simp only [setAt, if_neg hjj]
      exact h.source j gj hj hnil
    · intro i hi
      rw [hs, hr]
      have hii : i ≠ i0 := by
        intro hii; subst hii; rw [hi] at hi0; cases hi0
      have hjj : i ≠ j0 := by
        intro hjj; subst hjj; rw [hi] at hj0; cases hj0
      simp only [setAt, if_neg hii, if_neg hjj]
      exact h.absent i hi

theorem foldl_flowInv {α σ : Type} {gs : List (StageGoroutine α σ)} (hw : Wired gs)
    (n : Nat) (acts : List Action) :
    ∀ rt : Runtime α σ, FlowInv gs rt → FlowInv gs (acts.foldl (pipelineAct gs n) rt) := by
  induction acts with
  | nil => intro rt h; exact h
  | cons a acts ih => intro rt h; exact ih _ (pipelineAct_flowInv hw n h a)

theorem prevChan_eq_some {n c : Nat} (h : prevChan n = some c) : n = c + 1 := by
  unfold prevChan at h
  split at h
  · cases h
  · simp only [Option.some.injEq] at h
    omega

theorem RunPipeline_wired {α σ : Type} (cmds : List (cmd α σ)) :
    Wired (RunPipeline cmds).spawned := by
  obtain ⟨_, _, _, hstage⟩ := RunPipeline_wiring cmds
  refine ⟨?_, ?_⟩
  · intro i j gi gj hi hj hout
    rw [(hstage i gi hi).1, (hstage j gj hj).1] at hout
    exact hout
  · intro i j gi gj c hi hj hic hjc
    rw [(hstage i gi hi).2.1] at hic
    rw [(hstage j gj hj).2.1] at hjc
    rw [prevChan_eq_some hic, prevChan_eq_some hjc]

/-- In every state of every run of `RunPipeline(cmds...)` the data flow follows the
wiring. -/
theorem pipelineRun_flowInv {α σ : Type} (cmds : List (cmd α σ)) (acts : List Action) :
    FlowInv (RunPipeline cmds).spawned (pipelineRun cmds acts) :=
  foldl_flowInv (RunPipeline_wired cmds) cmds.length acts _ (startAll_flowInv _)

/-- No send of the last stage ever completes: its `out` is the `in` of no
goroutine, and `RunPipeline` itself receives only from `done`. -/
theorem pipelineRun_last_sent {α σ : Type} (cmds : List (cmd α σ)) (acts : List Action)
    (i : Nat) (hi : i + 1 = cmds.length) : (pipelineRun cmds acts).sent i = [] := by
  obtain ⟨_, _, hlen, hstage⟩ := RunPipeline_wiring cmds
  have hlt : i < (RunPipeline cmds).spawned.length := by omega
  refine (pipelineRun_flowInv cmds acts).unread i _ (List.getElem?_eq_getElem hlt) ?_
  intro j gj hj hc
  have hjlt : j < (RunPipeline cmds).spawned.length := by
    by_contra hge
    rw [List.getElem?_eq_none_iff.2 (by omega)] at hj
    cases hj
  rw [(hstage j gj hj).2.1, (hstage i _ (List.getElem?_eq_getElem hlt)).1] at hc
  have := prevChan_eq_some hc
  omega

/-! ### A pipeline whose last stage sends -/

/-- The local states of the three stage functions of the example. -/
inductive DemoState where
  | emit (pending : List Nat)
  | idle
  | holding (v : Nat)
  | finished
deriving DecidableEq, Repr

/-- The stage `func(in, out chan interface{}) { out <- 1; out <- 2; out <- 3 }`. -/
def genCmd : cmd Nat DemoState where
  init := .emit [1, 2, 3]
  next s _ :=
    match s with
    | .emit (v :: pending) => .send v (.emit pending)
    | _ => .ret

/-- The stage `func(in, out chan interface{}) { for v := range in { out <- 2 * v } }`. -/
def doubleCmd : cmd Nat DemoState where
  init := .idle
  next s _ :=
    match s with
    | .idle => .recv (fun r =>
        match r with
        | some v => .holding v
        | none => .finished)
    | .holding v => .send (2 * v) .idle
    | _ => .ret

/-- The stage `func(in, out chan interface{}) { for range in { } }`, which sends
nothing. -/
def sinkCmd : cmd Nat DemoState where
  init := .idle
  next s _ :=
    match s with
    | .idle => .recv (fun r =>
        match r with
        | some _ => .idle
        | none => .finished)
    | _ => .ret

/-- The stage function of `genCmd`: whatever its input, the output 1, 2, 3. -/
def genFn : StageFn Nat := fun _ => [1, 2, 3]

/-- The stage function of `doubleCmd`: every input value doubled. -/
def doubleFn : StageFn Nat := fun input => (input.getD []).map (fun v => 2 * v)

/-- The goroutines `RunPipeline(genCmd, doubleCmd)` starts. -/
def demoGoroutines : List (StageGoroutine Nat DemoState) :=
  [⟨genCmd, none, 0⟩, ⟨doubleCmd, some 0, 1⟩]

/-- The states `RunPipeline(genCmd, doubleCmd)` can be in: nothing has happened, or
the first value has passed and both stages are blocked in a send. -/
def DemoStuck (rt : Runtime Nat DemoState) : Prop :=
  rt.doneReceived = 0 ∧ rt.closedChans = [] ∧
  ((rt.phase 0 = .running (.emit [1, 2, 3]) ∧ rt.phase 1 = .running .idle) ∨
   (rt.phase 0 = .running (.emit [2, 3]) ∧ rt.phase 1 = .running (.holding 1)))

theorem demoGoroutines_eq : (RunPipeline [genCmd, doubleCmd]).spawned = demoGoroutines := rfl

theorem demoStuck_step (rt : Runtime Nat DemoState) (h : DemoStuck rt) (a : Action) :
    DemoStuck (pipelineAct demoGoroutines 2 rt a) := by
  obtain ⟨hdone, hclosed, hphase⟩ := h
  cases a with
  | solo i c =>
    simp only [pipelineAct]
    rcases hphase with ⟨h0, h1⟩ | ⟨h0, h1⟩
    · match i with
      | 0 => simp [soloStep, demoGoroutines, h0, genCmd, DemoStuck, hdone, hclosed, h1]
      | 1 => simp [soloStep, demoGoroutines, h1, doubleCmd, DemoStuck, hdone, hclosed, h0]
      | i + 2 => simp [soloStep, demoGoroutines, DemoStuck, hdone, hclosed, h0, h1]
    · match i with
      | 0 => simp [soloStep, demoGoroutines, h0, genCmd, DemoStuck, hdone, hclosed, h1]
      | 1 => simp [soloStep, demoGoroutines, h1, doubleCmd, DemoStuck, hdone, hclosed, h0]
      | i + 2 => simp [soloStep, demoGoroutines, DemoStuck, hdone, hclosed, h0, h1]
  | sync i j ci cj =>
    simp only [pipelineAct]
    rcases hphase with ⟨h0, h1⟩ | ⟨h0, h1⟩
    · match i, j with
      | 0, 0 => simp [syncStep, demoGoroutines, h0, genCmd, DemoStuck, hdone, hclosed, h1]
      | 0, 1 =>
        simp [syncStep, demoGoroutines, h0, h1, genCmd, doubleCmd, DemoStuck, hdone, hclosed,
          setAt]
      | 1, 0 =>
        simp [syncStep, demoGoroutines, h0, h1, genCmd, doubleCmd, DemoStuck, hdone, hclosed]
      | 1, 1 => simp [syncStep, demoGoroutines, h1, doubleCmd, DemoStuck, hdone, hclosed, h0]
      | i + 2, _ => simp [syncStep, demoGoroutines, DemoStuck, hdone, hclosed, h0, h1]
      | 0, j + 2 => simp [syncStep, demoGoroutines, DemoStuck, hdone, hclosed, h0, h1]
      | 1, j + 2 => simp [syncStep, demoGoroutines, DemoStuck, hdone, hclosed, h0, h1]
    · match i, j with
      | 0, 0 => simp [syncStep, demoGoroutines, h0, genCmd, DemoStuck, hdone, hclosed, h1]
      | 0, 1 =>
        simp [syncStep, demoGoroutines, h0, h1, genCmd, doubleCmd, DemoStuck, hdone, hclosed]
      | 1, 0 =>
        simp [syncStep, demoGoroutines, h0, h1, genCmd, doubleCmd, DemoStuck, hdone, hclosed]
      | 1, 1 => simp [syncStep, demoGoroutines, h1, doubleCmd, DemoStuck, hdone, hclosed, h0]
      | i + 2, _ => simp [syncStep, demoGoroutines, DemoStuck, hdone, hclosed, h0, h1]
      | 0, j + 2 => simp [syncStep, demoGoroutines, DemoStuck, hdone, hclosed, h0, h1]
      | 1, j + 2 => simp [syncStep, demoGoroutines, DemoStuck, hdone, hclosed, h0, h1]

theorem demoStuck_run (acts : List Action) :
    ∀ rt : Runtime Nat DemoState, DemoStuck rt →
      DemoStuck (acts.foldl (pipelineAct demoGoroutines 2) rt) := by
  induction acts with
  | nil => intro rt h; exact h
  | cons a acts ih => intro rt h; exact ih _ (demoStuck_step rt h a)

theorem demoStuck_pipelineRun (acts : List Action) :
    DemoStuck (pipelineRun [genCmd, doubleCmd] acts) := by
  unfold pipelineRun
  rw [demoGoroutines_eq]
  refine demoStuck_run acts _ ⟨rfl, rfl, Or.inl ⟨rfl, rfl⟩⟩

/-- The steps of a complete run of `RunPipeline(genCmd, doubleCmd, sinkCmd)`: the
three values pass through both channels one after the other, then every stage
returns, closes its `out` and signals. -/
def demoSchedule : List Action :=
  [.sync 0 1 0 0, .sync 1 2 0 0, .sync 0 1 0 0, .sync 1 2 0 0, .sync 0 1 0 0, .sync 1 2 0 0,
   .solo 0 0, .solo 0 0, .solo 0 0,
   .solo 1 0, .solo 1 0, .solo 1 0, .solo 1 0,
   .solo 2 0, .solo 2 0, .solo 2 0, .solo 2 0]

/-- C9, counterexample: for the stages `gen` (sends 1, 2, 3) and `double` (sends
twice every value it receives) the left-to-right composition of the stage
functions is `[2, 4, 6]`, and `double` does send these values when a third stage
reads them; but in every run of `RunPipeline(gen, double)` nothing flows out of the
last stage, and `RunPipeline` never receives a completion signal: the last `out`
is never read, so both stages block in a send. -/
theorem RunPipeline_last_output_unread :
    composeStages [genFn, doubleFn] none = some [2, 4, 6] ∧
    (pipelineRun [genCmd, doubleCmd, sinkCmd] demoSchedule).sent 1 = [2, 4, 6] ∧
    (pipelineRun [genCmd, doubleCmd, sinkCmd] demoSchedule).doneReceived = 3 ∧
    (∀ acts : List Action,
      some ((pipelineRun [genCmd, doubleCmd] acts).sent 1)
        ≠ composeStages [genFn, doubleFn] none) ∧
    (∀ acts : List Action, (pipelineRun [genCmd, doubleCmd] acts).sent 1 = []) ∧
    (∀ acts : List Action, (pipelineRun [genCmd, doubleCmd] acts).doneReceived = 0) := by
  have hcomp : composeStages [genFn, doubleFn] none = some [2, 4, 6] := by decide
  have hlast : ∀ acts : List Action, (pipelineRun [genCmd, doubleCmd] acts).sent 1 = [] :=
    fun acts => pipelineRun_last_sent [genCmd, doubleCmd] acts 1 rfl
  refine ⟨hcomp, by decide, by decide, ?_, hlast, fun acts => (demoStuck_pipelineRun acts).1⟩
  intro acts
  rw [hlast acts, hcomp]
  decide

/-- C9, as amended: for every list of stage functions passed to `RunPipeline`,
stage `i` is started with `cmds[i]`, the first stage is given the nil channel and
the input channel of stage `i+1` is the very output channel of stage `i`; hence in
every state of every run stage `i+1` has received exactly the values stage `i` has
sent, in the order sent, and the first stage has received nothing.  The output
channel of the last stage is the input of no stage, so no send of the last stage
ever completes: nothing flows out of the last stage. -/
theorem RunPipeline_chain {α σ : Type} (cmds : List (cmd α σ)) :
    ((RunPipeline cmds).spawned.map StageGoroutine.cmdFunc = cmds) ∧
    (∀ g : StageGoroutine α σ, (RunPipeline cmds).spawned[0]? = some g → g.inp = none) ∧
    (∀ (i : Nat) (g h : StageGoroutine α σ), (RunPipeline cmds).spawned[i]? = some g →
      (RunPipeline cmds).spawned[i + 1]? = some h → h.inp = some g.out) ∧
    (∀ (acts : List Action) (i : Nat), i + 1 < cmds.length →
      (pipelineRun cmds acts).received (i + 1) = (pipelineRun cmds acts).sent i) ∧
    (∀ acts : List Action, (pipelineRun cmds acts).received 0 = []) ∧
    (∀ (acts : List Action) (i : Nat), i + 1 = cmds.length →
      (pipelineRun cmds acts).sent i = []) := by
  obtain ⟨_, _, hlen, hstage⟩ := RunPipeline_wiring cmds
  refine ⟨?_, ?_, ?_, ?_, ?_, ?_⟩
  · apply List.ext_getElem?
    intro i
    rw [List.getElem?_map]
    cases hg : (RunPipeline cmds).spawned[i]? with
    | none =>
      have : cmds.length ≤ i := by
        rw [← hlen]; exact List.getElem?_eq_none_iff.1 hg
      simp [List.getElem?_eq_none_iff.2 this]
    | some g => simp [(hstage i g hg).2.2]
  · intro g hg
    exact (hstage 0 g hg).2.1
  · intro i g h hg hh
    rw [(hstage (i + 1) h hh).2.1, (hstage i g hg).1]
    simp [prevChan]
  · intro acts i hi
    have h0 : i < (RunPipeline cmds).spawned.length := by omega
    have h1 : i + 1 < (RunPipeline cmds).spawned.length := by omega
    refine (pipelineRun_flowInv cmds acts).link i (i + 1) _ _
      (List.getElem?_eq_getElem h0) (List.getElem?_eq_getElem h1) ?_
    rw [(hstage (i + 1) _ (List.getElem?_eq_getElem h1)).2.1,
      (hstage i _ (List.getElem?_eq_getElem h0)).1]
    simp [prevChan]
  · intro acts
    cases hg : (RunPipeline cmds).spawned[0]? with
    | none => exact ((pipelineRun_flowInv cmds acts).absent 0 hg).2
    | some g => exact (pipelineRun_flowInv cmds acts).source 0 g hg (hstage 0 g hg).2.1
  · intro acts i hi
    exact pipelineRun_last_sent cmds acts i hi

/-! ## The whole chain on the example of the specification -/

/-- The messages of the users of the example: user 1 has the messages 101 and
102, user 2 has the message 201. -/
def exampleMessages (userID : Nat) : List MsgID :=
  if userID = 1 then [101, 102] else if userID = 2 then [201] else []

theorem dispatchedBatches_flatten {B : Nat} (hB : 1 ≤ B) (input : List User) :
    (dispatchedBatches B input).flatten = input := by
  obtain ⟨full, rest, _, _, hcat, hshape, _⟩ := dispatchedBatches_shape hB input
  rw [hshape]
  split
  · simpa using hcat
  · rename_i hpos
    have : rest = [] := List.length_eq_zero.1 (by omega)
    simpa [this] using hcat

/-- When every fetch succeeds with the messages of the users of its batch (in
any order), `SelectMessages` sends, up to order, the messages of all its input
users. -/
theorem SelectMessages_perm_of_fetch (GetMessages : List User → Except Error (List MsgID))
    (messagesOf : Nat → List MsgID) {B : Nat} (hB : 1 ≤ B) (sched : List Nat)
    (input : List User)
    (hfetch : ∀ batch, ∃ res, GetMessages batch = .ok res ∧
      res.Perm (batch.flatMap (fun u => messagesOf u.ID))) :
    (SelectMessages GetMessages B sched input).Perm
      ((input.map User.ID).flatMap messagesOf) := by
  refine (SelectMessages_perm GetMessages B sched input).trans ?_
  have h1 : ((dispatchedBatches B input).flatMap (fetched GetMessages)).Perm
      ((dispatchedBatches B input).flatMap
        (fun batch => batch.flatMap (fun u => messagesOf u.ID))) := by
    apply List.Perm.flatMap_left
    intro batch _
    obtain ⟨res, hres, hperm⟩ := hfetch batch
    simpa [fetched, hres] using hperm
  refine h1.trans (List.Perm.of_eq ?_)
  have h2 : (dispatchedBatches B input).flatMap
        (fun batch => batch.flatMap (fun u => messagesOf u.ID))
      = (dispatchedBatches B input).flatten.flatMap (fun u => messagesOf u.ID) := by
    generalize dispatchedBatches B input = bs
    induction bs with
    | nil => rfl
    | cons b bs ih => simp [List.flatMap_cons, List.flatMap_append, ih]
  rw [h2, dispatchedBatches_flatten hB, List.flatMap_def, List.flatMap_def, List.map_map]
  rfl

/-- C4: the end-to-end example.  The emails `a@x.com, b@x.com, a@x.com` resolve to
the user IDs 1, 2, 1; user 1 has the messages 101 and 102, user 2 has 201; the
checks return 101 ↦ true, 102 ↦ false, 201 ↦ true.  Then for every batch size
`B ≥ 1`, every worker count `W ≥ 1`, every order of the lookups and every
interleaving of the batch workers and of the pool workers, `SelectUsers` emits
exactly two users, with the IDs 1 and 2, and the chain `SelectUsers`,
`SelectMessages`, `CheckSpam`, `CombineResults` emits exactly the lines
`true 101`, `true 201`, `false 102`, in this order. -/
theorem pipeline_example (GetUser : String → User)
    (GetMessages : List User → Except Error (List MsgID))
    (HasSpam : MsgID → Except Error Bool) (B W : Nat) (order : List String)
    (schedFetch schedCheck : List Nat)
    (hB : 1 ≤ B) (hW : 1 ≤ W)
    (horder : order.Perm ["a@x.com", "b@x.com", "a@x.com"])
    (hA : (GetUser "a@x.com").ID = 1) (hBu : (GetUser "b@x.com").ID = 2)
    (hfetch : ∀ batch, ∃ res, GetMessages batch = .ok res ∧
      res.Perm (batch.flatMap (fun u => exampleMessages u.ID)))
    (h101 : HasSpam 101 = .ok true) (h102 : HasSpam 102 = .ok false)
    (h201 : HasSpam 201 = .ok true) :
    (SelectUsers GetUser order).length = 2 ∧
    ((SelectUsers GetUser order).map User.ID).Perm [1, 2] ∧
    CombineResults
      (CheckSpam HasSpam W schedCheck
        (SelectMessages GetMessages B schedFetch (SelectUsers GetUser order)))
      = ["true 101", "true 201", "false 102"] := by
  have hids : ((SelectUsers GetUser order).map User.ID).Perm [1, 2] := by
    refine (SelectUsers_ids_perm GetUser horder).trans ?_
    have : resolvedIDs GetUser ["a@x.com", "b@x.com", "a@x.com"] = [1, 2, 1] := by
      simp [resolvedIDs, hA, hBu]
    rw [this]
    decide
  have hmsgs : (SelectMessages GetMessages B schedFetch (SelectUsers GetUser order)).Perm
      [101, 102, 201] :=
    (SelectMessages_perm_of_fetch GetMessages exampleMessages hB schedFetch _ hfetch).trans
      (hids.flatMap_right exampleMessages)
  have hdata : (CheckSpam HasSpam W schedCheck
      (SelectMessages GetMessages B schedFetch (SelectUsers GetUser order))).Perm
      [⟨101, true⟩, ⟨102, false⟩, ⟨201, true⟩] := by
    refine (CheckSpam_perm HasSpam hW schedCheck _).trans ?_
    refine (hmsgs.filterMap (classify HasSpam)).trans (List.Perm.of_eq ?_)
    simp [classify, h101, h102, h201]
  refine ⟨?_, hids, ?_⟩
  · simpa using hids.length_eq
  · rw [CombineResults_congr hdata]
    decide

/-- C4 at a concrete instance: batch size 2, five pool workers, the lookup of
`b@x.com` finishing first. -/
theorem pipeline_example_witness :
    (SelectUsers (fun email => ⟨if email = "a@x.com" then 1 else 2, email⟩)
        ["b@x.com", "a@x.com", "a@x.com"]).length = 2 ∧
    ((SelectUsers (fun email => ⟨if email = "a@x.com" then 1 else 2, email⟩)
        ["b@x.com", "a@x.com", "a@x.com"]).map User.ID).Perm [1, 2] ∧
    CombineResults
      (CheckSpam (fun id => .ok (id = 101 ∨ id = 201)) 5 [0, 1, 1, 2]
        (SelectMessages (fun batch => .ok (batch.flatMap (fun u => exampleMessages u.ID)))
          2 [0, 0]
          (SelectUsers (fun email => ⟨if email = "a@x.com" then 1 else 2, email⟩)
            ["b@x.com", "a@x.com", "a@x.com"])))
      = ["true 101", "true 201", "false 102"] :=
  pipeline_example (fun email => ⟨if email = "a@x.com" then 1 else 2, email⟩)
    (fun batch => .ok (batch.flatMap (fun u => exampleMessages u.ID)))
    (fun id => .ok (id = 101 ∨ id = 201)) 2 5 ["b@x.com", "a@x.com", "a@x.com"]
    [0, 0] [0, 1, 1, 2] (by decide) (by decide)
    (List.Perm.swap "a@x.com" "b@x.com" ["a@x.com"]) (by decide) (by decide)
    (fun batch => ⟨_, rfl, List.Perm.refl _⟩) rfl rfl rfl

/-! ## Completion signalling -/

/-- The number of goroutines that have not finished. -/
def pending {ε : Type} (queues : List (List ε)) : Nat :=
  queues.countP (fun q => !q.isEmpty)

end Spammer
